import Mathlib

/-! ## nimbonet: the probe engine, the worker loop and the worker pool

A shallow embedding of `main.go`.

* Go strings are modelled by `String`; the string literals of the program are
  ASCII.
* The calls out of the program (`net.LookupIP`, `awschecker.IsAWSIPAddress`,
  `http.Get`, `io.ReadAll`) are the fields of an environment `Env` that fixes
  their outcomes, an outcome being an error or a value (`Except`).
* The effects of `checkSubdomain` and of the loop of `worker` (calls issued,
  lines printed) are the list of `Event`s in program order.
* The goroutines of `main` are a transition system on `Pool`: the scheduler
  picks `main` or a worker, which executes its next channel or wait-group
  operation atomically; `Pool.run` runs a schedule.  Standard input is the list
  of its lines, read by a `bufio.Scanner` with its default buffer.
-/

namespace Nimbonet

/-! ## Data model -/

/-- Go `error` values, kept as their text. -/
abbrev Error := String

/-- A `net.IP`: the bytes of the address. -/
abbrev IP := List Nat

/-- An `awschecker.Prefix`, a CIDR block of the provider, kept as its text. -/
abbrev Prefix := String

/-- The part of `*http.Response` the program reads: `resp.StatusCode`, and the
outcome of `io.ReadAll(resp.Body)`. -/
structure Response where
  StatusCode : Int
  Body : Except Error String

/-- The package variable `verbose` and the outcomes of the external calls. -/
structure Env where
  verbose : Bool
  LookupIP : String → Except Error (List IP)
  IsAWSIPAddress : IP → List Prefix → Except Error (List Prefix)
  Get : String → Except Error Response

/-- The four print statements of `checkSubdomain`, with their arguments. -/
inductive Output where
  /-- The line of `fmt.Printf("%s,%d\n", subdomain, resp.StatusCode)` -/
  | status (url : String) (code : Int)
  /-- The line of `fmt.Printf("Error reading response body for %s: %v\n", subdomain, err)` -/
  | readError (url : String) (err : Error)
  /-- The line of `color.Green.Println("Potential CloudFront misconfiguration found:", subdomain)` -/
  | green (url : String)
  /-- The line of `fmt.Println(subdomain)` -/
  | println (url : String)
  deriving DecidableEq, Repr

/-- The effects of the program, in the order the code performs them. -/
inductive Event where
  /-- The call `net.LookupIP(subdomain)` -/
  | LookupIP (subdomain : String)
  /-- The call `awschecker.IsAWSIPAddress(ip, prefixes)` -/
  | IsAWSIPAddress (ip : IP)
  /-- The call `checkSubdomain(subdomain, wg)` in `worker` -/
  | checkSubdomain (subdomain : String)
  /-- The call `http.Get(subdomain)` -/
  | Get (url : String)
  /-- The call `io.ReadAll(resp.Body)` -/
  | ReadAll (url : String)
  /-- A print statement -/
  | Print (o : Output)
  deriving DecidableEq, Repr

/-! ## Library functions of package `strings` -/

/-- The function `strings.HasPrefix(s, p)`: `s` begins with `p`. -/
def HasPrefix (s p : String) : Bool :=
  p.data.isPrefixOf s.data

/-- The function `strings.Contains(s, substr)`: `substr` occurs in `s` at some offset. -/
def Contains (s substr : String) : Bool :=
  s.data.tails.any (fun t => substr.data.isPrefixOf t)

/-! ## The program -/

/-- The constant `http.StatusForbidden`. -/
def StatusForbidden : Int := 403

/-- The function `startsWithHTTP` checks if the subdomain starts with http:// or https:// -/
def startsWithHTTP (subdomain : String) : Bool :=
  HasPrefix subdomain "http://" || HasPrefix subdomain "https://"

/-- The first statement of `checkSubdomain`: the value of `subdomain` after
`if !startsWithHTTP(subdomain) { subdomain = "http://" + subdomain }`. -/
def normalize (subdomain : String) : String :=
  if !startsWithHTTP subdomain then "http://" ++ subdomain else subdomain

/-- The function `checkSubdomain` makes an HTTP GET request to the subdomain and checks the
response.  The result is the list of its effects. -/
def checkSubdomain (env : Env) (subdomain : String) : List Event :=
  let subdomain := normalize subdomain
  Event.Get subdomain ::
  match env.Get subdomain with
  | .error _ => []
  | .ok resp =>
    (if env.verbose then [Event.Print (.status subdomain resp.StatusCode)] else []) ++
    (if resp.StatusCode = StatusForbidden then
      Event.ReadAll subdomain ::
      match resp.Body with
      | .error err =>
        if env.verbose then [Event.Print (.readError subdomain err)] else []
      | .ok bodyString =>
        if Contains bodyString "Bad request" then
          if env.verbose then [Event.Print (.green subdomain)]
          else [Event.Print (.println subdomain)]
        else []
    else [])

/-- The inner loop of `worker`: `for _, ip := range IPs { ... }`. -/
def scanIPs (env : Env) (prefixes : List Prefix) (subdomain : String) :
    List IP → List Event
  | [] => []
  | ip :: rest =>
    Event.IsAWSIPAddress ip ::
    match env.IsAWSIPAddress ip prefixes with
    | .error _ => scanIPs env prefixes subdomain rest
    | .ok matchingPrefixes =>
      (if matchingPrefixes.length > 0 then
        Event.checkSubdomain subdomain :: checkSubdomain env subdomain
      else []) ++ scanIPs env prefixes subdomain rest

/-- One iteration of the outer loop of `worker`, for one received hostname. -/
def workerStep (env : Env) (prefixes : List Prefix) (subdomain : String) :
    List Event :=
  Event.LookupIP subdomain ::
  match env.LookupIP subdomain with
  | .error _ => []
  | .ok IPs => scanIPs env prefixes subdomain IPs

/-- The function `worker`, run on the hostnames it receives from the channel
until the channel is closed: `for subdomain := range subdomains { ... }`. -/
def worker (env : Env) (prefixes : List Prefix) : List String → List Event
  | [] => []
  | subdomain :: rest =>
    workerStep env prefixes subdomain ++ worker env prefixes rest

/-! ## Reading a trace -/

/-- The lines printed, in order. -/
def output : List Event → List Output
  | [] => []
  | Event.Print o :: es => o :: output es
  | _ :: es => output es

/-- The URLs requested with `http.Get`, in order. -/
def requests : List Event → List String
  | [] => []
  | Event.Get url :: es => url :: requests es
  | _ :: es => requests es

/-- The hostnames `checkSubdomain` was called on, in order. -/
def probes : List Event → List String
  | [] => []
  | Event.checkSubdomain s :: es => s :: probes es
  | _ :: es => probes es

/-- The addresses looked up in the range index, in order. -/
def lookups : List Event → List IP
  | [] => []
  | Event.IsAWSIPAddress ip :: es => ip :: lookups es
  | _ :: es => lookups es

/-- A finding is the bare URL (`fmt.Println`) or the green line. -/
def Output.isFinding : Output → Bool
  | .green _ => true
  | .println _ => true
  | _ => false

/-- A diagnostic is the line `<url>,<status code>`. -/
def Output.isDiagnostic : Output → Bool
  | .status _ _ => true
  | _ => false

/-- The URL an output line reports. -/
def Output.url : Output → String
  | .status u _ => u
  | .readError u _ => u
  | .green u => u
  | .println u => u

/-- The text the `fmt` print statements write to standard output; the text of
the green line is produced by package `color`, given here as `colored`. -/
def Output.text (colored : String → String) : Output → String
  | .status u code => u ++ "," ++ toString code ++ "\n"
  | .readError u err => "Error reading response body for " ++ u ++ ": " ++ err ++ "\n"
  | .green u => colored ("Potential CloudFront misconfiguration found: " ++ u)
  | .println u => u ++ "\n"

/-- The findings among the lines printed. -/
def findings (es : List Event) : List Output :=
  (output es).filter Output.isFinding

/-- The diagnostics among the lines printed. -/
def diagnostics (es : List Event) : List Output :=
  (output es).filter Output.isDiagnostic

/-! ## Predicates and environments used in the statements -/

/-- A probe emits a finding for `subdomain`: a finding line with its URL. -/
def emitsFinding (es : List Event) (subdomain : String) : Bool :=
  (output es).any (fun o => o.isFinding && decide (o.url = normalize subdomain))

/-- An environment whose every request is answered with the same response. -/
def mockEnv (verbose : Bool) (code : Int) (body : Except Error String) : Env where
  verbose := verbose
  LookupIP := fun _ => .ok [[10, 0, 0, 1]]
  IsAWSIPAddress := fun _ _ => .ok ["10.0.0.0/8"]
  Get := fun _ => .ok ⟨code, body⟩

/-- An environment whose every request fails with a transport error. -/
def failingEnv (verbose : Bool) : Env where
  verbose := verbose
  LookupIP := fun _ => .ok [[10, 0, 0, 1]]
  IsAWSIPAddress := fun _ _ => .ok ["10.0.0.0/8"]
  Get := fun _ => .error "connection refused"

/-- The looked-up address qualifies for a probe: the lookup returns no error
and a non-empty match set. -/
def qualifies (env : Env) (prefixes : List Prefix) (ip : IP) : Bool :=
  match env.IsAWSIPAddress ip prefixes with
  | .error _ => false
  | .ok matchingPrefixes => decide (matchingPrefixes.length > 0)

/-- The DNS resolution of the hostname succeeds. -/
def resolves (env : Env) (subdomain : String) : Bool :=
  match env.LookupIP subdomain with
  | .error _ => false
  | .ok _ => true

/-- An environment in which every hostname resolves to the given addresses, the
lookup of an address that is not of four bytes fails, and an address matches the
block `10.0.0.0/8` when its first byte is 10; every request is answered 403
with body `Bad request`. -/
def awsEnv (verbose : Bool) (IPs : List IP) : Env where
  verbose := verbose
  LookupIP := fun _ => .ok IPs
  IsAWSIPAddress := fun ip prefixes =>
    if ip.length = 4 then
      .ok (prefixes.filter (fun p => p == "10.0.0.0/8" && ip.head? == some 10))
    else .error "invalid IP address"
  Get := fun _ => .ok ⟨403, .ok "Bad request"⟩

/-- An environment of `awsEnv` in which the hostnames of the given list do not
resolve. -/
def dnsEnv (verbose : Bool) (IPs : List IP) (unresolved : List String) : Env where
  verbose := verbose
  LookupIP := fun s => if s ∈ unresolved then .error "no such host" else .ok IPs
  IsAWSIPAddress := (awsEnv verbose IPs).IsAWSIPAddress
  Get := (awsEnv verbose IPs).Get

/-- The environment of the end-to-end scenario: `a.example.com` resolves to
`10.0.0.1`, inside the block `10.0.0.0/8`, every other hostname to
`192.168.0.1`, outside of it; every request is answered 403 with body
`Bad request`. -/
def scenarioEnv : Env where
  verbose := false
  LookupIP := fun s => if s = "a.example.com" then .ok [[10, 0, 0, 1]] else .ok [[192, 168, 0, 1]]
  IsAWSIPAddress := (awsEnv false []).IsAWSIPAddress
  Get := (awsEnv false []).Get

/-! ## The worker pool of `main` -/

/-- The constant `bufio.MaxScanTokenSize`, the size of the largest buffer of a
`bufio.Scanner` created with `bufio.NewScanner`. -/
def MaxScanTokenSize : Nat := 64 * 1024

/-- The line fits in the buffer of the scanner, so that `scanner.Scan()` returns
true on it; on a line of `MaxScanTokenSize` bytes or more it returns false, with
the error `bufio.ErrTooLong`, which `main` does not look at. -/
def fits (line : String) : Bool :=
  decide (line.utf8ByteSize < MaxScanTokenSize)

/-- The function `dropCR` of package `bufio`: the value of `scanner.Text()` is the line
without its end-of-line marker, a newline preceded by an optional carriage
return. -/
def dropCR (line : String) : String :=
  if line.data.getLast? = some '\r' then String.mk line.data.dropLast else line

/-- The hostnames the loop `for scanner.Scan()` of `main` gets from the lines of
standard input: the loop ends at the first line that does not fit. -/
def scanned (lines : List String) : List String :=
  (lines.takeWhile fits).map dropCR

/-- Where `main` stands. -/
inductive MainPC where
  /-- before `prefixes, err := awschecker.GetAWSPrefixes()` -/
  | fetch
  /-- at the head of `for i := 0; i < concurrency; i++`, with the value of `i` -/
  | spawn (i : Nat)
  /-- at the head of `for scanner.Scan()` -/
  | feed
  /-- in `wg.Wait()`, after `close(subdomains)` -/
  | wait
  /-- after `main` has returned -/
  | returned
  /-- after `log.Fatalf` has ended the process -/
  | fatal
  deriving DecidableEq, Repr

/-- Where a goroutine running `worker` stands. -/
inductive WorkerPC where
  /-- at the head of `for subdomain := range subdomains` -/
  | receive
  /-- in the body of the loop, with the hostname received -/
  | process (subdomain : String)
  /-- returned, the deferred `wg.Done()` executed -/
  | done
  deriving DecidableEq, Repr

/-- The state of the process: the variables of `main`, the goroutines, and two
logs, of the hostnames received from the channel and of the loop bodies
completed, each with the index of the worker.  Limits of resources (memory for
the channel and the goroutines) are left out. -/
structure Pool where
  /-- the package variable `concurrency` -/
  concurrency : Nat
  /-- whether `awschecker.GetAWSPrefixes()` returns an error -/
  fetchFails : Bool
  main : MainPC
  /-- the lines that standard input delivers, up to its end or a read error,
  and that the scanner has not read yet, each without its newline -/
  stdin : List String
  /-- the buffer of the channel `subdomains`, of capacity `concurrency` -/
  subdomains : List String
  /-- whether `close(subdomains)` has been executed -/
  closed : Bool
  /-- the counter of the wait group `wg` -/
  wg : Nat
  /-- the goroutines started by `go worker(subdomains, &wg, prefixes)` -/
  workers : List WorkerPC
  dequeued : List (Nat × String)
  processed : List (Nat × String)

/-- The state in which `main` starts. -/
def Pool.init (concurrency : Nat) (fetchFails : Bool) (stdin : List String) : Pool where
  concurrency := concurrency
  fetchFails := fetchFails
  main := .fetch
  stdin := stdin
  subdomains := []
  closed := false
  wg := 0
  workers := []
  dequeued := []
  processed := []

/-- One step of `main`; `none` when `main` is blocked or has ended. -/
def Pool.stepMain (p : Pool) : Option Pool :=
  match p.main with
  | .fetch =>
    if p.fetchFails then some { p with main := .fatal }
    else some { p with main := .spawn 0 }
  | .spawn i =>
    if i < p.concurrency then
      some { p with wg := p.wg + 1, workers := p.workers ++ [.receive], main := .spawn (i + 1) }
    else some { p with main := .feed }
  | .feed =>
    match p.stdin with
    | [] => some { p with closed := true, main := .wait }
    | line :: rest =>
      if fits line then
        if p.subdomains.length < p.concurrency then
          some { p with subdomains := p.subdomains ++ [dropCR line], stdin := rest }
        else none
      else some { p with closed := true, main := .wait }
  | .wait => if p.wg = 0 then some { p with main := .returned } else none
  | .returned => none
  | .fatal => none

/-- One step of the worker of index `i`; `none` when it is blocked, has
returned, or was never started.  The body of the loop is one step: the calls
it makes are taken to return. -/
def Pool.stepWorker (p : Pool) (i : Nat) : Option Pool :=
  match p.workers[i]? with
  | none => none
  | some .receive =>
    match p.subdomains with
    | subdomain :: rest =>
      some { p with subdomains := rest, workers := p.workers.set i (.process subdomain),
                    dequeued := p.dequeued ++ [(i, subdomain)] }
    | [] =>
      if p.closed then some { p with workers := p.workers.set i .done, wg := p.wg - 1 }
      else none
  | some (.process subdomain) =>
    some { p with workers := p.workers.set i .receive,
                  processed := p.processed ++ [(i, subdomain)] }
  | some .done => none

/-- The choice of the scheduler: which goroutine runs next. -/
inductive Action where
  | main
  | worker (i : Nat)
  deriving DecidableEq, Repr

/-- One step of the goroutine the scheduler chose. -/
def Pool.step (p : Pool) : Action → Option Pool
  | .main => p.stepMain
  | .worker i => p.stepWorker i

/-- The run of a schedule; a goroutine that is chosen while it cannot move
leaves the state as it is. -/
def Pool.run (p : Pool) : List Action → Pool
  | [] => p
  | a :: rest => ((p.step a).getD p).run rest

/-- The number of steps taken in the run of a schedule: the choices of a
goroutine that could move. -/
def Pool.steps (p : Pool) : List Action → Nat
  | [] => 0
  | a :: rest =>
    match p.step a with
    | none => p.steps rest
    | some q => q.steps rest + 1

/-- The hostnames received from the channel, in the order of the receptions. -/
def Pool.received (p : Pool) : List String :=
  p.dequeued.map Prod.snd

/-- The steps `main` has before it, apart from the sending of hostnames. -/
def MainPC.weight (concurrency : Nat) : MainPC → Nat
  | .fetch => 4 + 2 * concurrency
  | .spawn i => 3 + 2 * (concurrency - i)
  | .feed => 2
  | .wait => 1
  | .returned => 0
  | .fatal => 0

/-- The steps a worker has before it, apart from the receptions. -/
def WorkerPC.weight : WorkerPC → Nat
  | .receive => 1
  | .process _ => 2
  | .done => 0

/-- A bound on the number of steps the process has before it. -/
def Pool.measure (p : Pool) : Nat :=
  p.main.weight p.concurrency + 3 * (scanned p.stdin).length + 2 * p.subdomains.length +
    (p.workers.map WorkerPC.weight).sum

/-- A schedule for two workers and two hostnames in which worker 1 receives the
first hostname and worker 0 the second. -/
def Pool.interleaved : List Action :=
  [.main, .main, .main, .main, .main, .worker 1, .main, .worker 0, .worker 1, .main,
   .worker 0, .worker 0, .worker 1, .worker 1, .main]

/-- A line of `MaxScanTokenSize` bytes. -/
def longLine : String :=
  String.mk (List.replicate MaxScanTokenSize 'a')

/-- A schedule for one worker in which the worker receives and processes the
first hostname as soon as it is sent, and `main` and the worker go on to their
ends. -/
def Pool.sequential : List Action :=
  [.main, .main, .main, .main, .worker 0, .worker 0, .main, .worker 0, .main]

/-- What holds of the goroutines and the channel at each point of `main`. -/
def Pool.Phase (p : Pool) : Prop :=
  match p.main with
  | .fetch => p.workers.length = 0 ∧ p.closed = false
  | .spawn i => p.workers.length = i ∧ i ≤ p.concurrency ∧ p.closed = false
  | .feed => p.workers.length = p.concurrency ∧ p.closed = false
  | .wait => p.workers.length = p.concurrency ∧ p.closed = true ∧ scanned p.stdin = []
  | .returned =>
    p.workers.length = p.concurrency ∧ p.closed = true ∧ scanned p.stdin = [] ∧ p.wg = 0
  | .fatal => p.workers.length = 0 ∧ p.closed = false ∧ p.fetchFails = true

/-- The invariant of the pool started with `N` workers on the lines `src`. -/
structure Pool.Inv (N : Nat) (src : List String) (p : Pool) : Prop where
  /-- the variable `concurrency` does not change -/
  conc : p.concurrency = N
  /-- the hostnames scanned are what was received, then the buffer, then what is
  still to scan -/
  order : p.received ++ p.subdomains ++ scanned p.stdin = scanned src
  /-- a reception is a completed loop body or the one the worker is in -/
  counts : ∀ i s, p.dequeued.count (i, s) =
    p.processed.count (i, s) + (if p.workers[i]? = some (.process s) then 1 else 0)
  /-- the counter of the wait group is the number of workers that have not returned -/
  wg : p.wg = p.workers.countP (fun w => decide (w ≠ .done))
  /-- the buffer holds at most `concurrency` hostnames -/
  cap : p.subdomains.length ≤ N
  /-- a worker returns only from a closed and drained channel -/
  done : WorkerPC.done ∈ p.workers → p.closed = true ∧ p.subdomains = []
  /-- a reception is by a worker that was started -/
  index : ∀ e ∈ p.dequeued, e.1 < p.workers.length
  phase : p.Phase

/-! ## Lemmas on strings -/

theorem HasPrefix_iff (s p : String) :
    HasPrefix s p = true ↔ p.data <+: s.data := by
  unfold HasPrefix
  exact List.isPrefixOf_iff_prefix

theorem Contains_iff (s substr : String) :
    Contains s substr = true ↔ substr.data <:+: s.data := by
  unfold Contains
  rw [List.any_eq_true, List.infix_iff_prefix_suffix]
  constructor
  · rintro ⟨t, ht, hp⟩
    exact ⟨t, List.isPrefixOf_iff_prefix.mp hp, (List.mem_tails _ _).mp ht⟩
  · rintro ⟨t, hp, ht⟩
    exact ⟨t, (List.mem_tails _ _).mpr ht, List.isPrefixOf_iff_prefix.mpr hp⟩

theorem Contains_eq_false_iff (s substr : String) :
    Contains s substr = false ↔ ¬ substr.data <:+: s.data := by
  rw [← Contains_iff]
  cases Contains s substr <;> simp

theorem startsWithHTTP_iff (s : String) :
    startsWithHTTP s = true ↔
      "http://".data <+: s.data ∨ "https://".data <+: s.data := by
  unfold startsWithHTTP
  rw [Bool.or_eq_true, HasPrefix_iff, HasPrefix_iff]

/-! ## Lemmas on traces -/

@[simp] theorem output_nil : output [] = [] := rfl

@[simp] theorem output_cons (e : Event) (es : List Event) :
    output (e :: es) =
      (match e with | Event.Print o => [o] | _ => []) ++ output es := by
  cases e <;> rfl

@[simp] theorem output_append (es fs : List Event) :
    output (es ++ fs) = output es ++ output fs := by
  induction es with
  | nil => rfl
  | cons e es ih => simp [ih]

@[simp] theorem requests_nil : requests [] = [] := rfl

@[simp] theorem requests_cons (e : Event) (es : List Event) :
    requests (e :: es) =
      (match e with | Event.Get u => [u] | _ => []) ++ requests es := by
  cases e <;> rfl

@[simp] theorem requests_append (es fs : List Event) :
    requests (es ++ fs) = requests es ++ requests fs := by
  induction es with
  | nil => rfl
  | cons e es ih => simp [ih]

@[simp] theorem probes_nil : probes [] = [] := rfl

@[simp] theorem probes_cons (e : Event) (es : List Event) :
    probes (e :: es) =
      (match e with | Event.checkSubdomain s => [s] | _ => []) ++ probes es := by
  cases e <;> rfl

@[simp] theorem probes_append (es fs : List Event) :
    probes (es ++ fs) = probes es ++ probes fs := by
  induction es with
  | nil => rfl
  | cons e es ih => simp [ih]

@[simp] theorem lookups_nil : lookups [] = [] := rfl

@[simp] theorem lookups_cons (e : Event) (es : List Event) :
    lookups (e :: es) =
      (match e with | Event.IsAWSIPAddress ip => [ip] | _ => []) ++ lookups es := by
  cases e <;> rfl

@[simp] theorem lookups_append (es fs : List Event) :
    lookups (es ++ fs) = lookups es ++ lookups fs := by
  induction es with
  | nil => rfl
  | cons e es ih => simp [ih]

/-- The trace of a probe whose request fails. -/
theorem checkSubdomain_of_error (env : Env) (s : String) (e : Error)
    (h : env.Get (normalize s) = .error e) :
    checkSubdomain env s = [Event.Get (normalize s)] := by
  simp [checkSubdomain, h]

/-- The lines a probe prints when its request completes. -/
theorem output_checkSubdomain_of_ok (env : Env) (s : String) (resp : Response)
    (h : env.Get (normalize s) = .ok resp) :
    output (checkSubdomain env s) =
      (if env.verbose then [Output.status (normalize s) resp.StatusCode] else []) ++
      (if resp.StatusCode = StatusForbidden then
        match resp.Body with
        | .error err =>
          if env.verbose then [Output.readError (normalize s) err] else []
        | .ok bodyString =>
          if Contains bodyString "Bad request" then
            [if env.verbose then Output.green (normalize s)
              else Output.println (normalize s)]
          else []
      else []) := by
  simp only [checkSubdomain, h, output_cons, output_append, List.nil_append]
  cases env.verbose <;> by_cases hc : resp.StatusCode = StatusForbidden <;>
    simp [hc] <;> cases resp.Body <;> simp <;> split <;> simp

/-- C1: on a 403 response whose body is read, `checkSubdomain` emits a finding
for the hostname exactly when the body contains `Bad request` (case-sensitive);
in non-verbose mode the output is then the one line with the normalized URL and
is empty otherwise. -/
theorem checkSubdomain_forbidden_finding_iff (env : Env) (subdomain : String)
    (resp : Response) (body : String)
    (hget : env.Get (normalize subdomain) = .ok resp)
    (hcode : resp.StatusCode = 403)
    (hbody : resp.Body = .ok body) :
    (emitsFinding (checkSubdomain env subdomain) subdomain = true ↔
        "Bad request".data <:+: body.data) ∧
    (findings (checkSubdomain env subdomain) ≠ [] ↔
        "Bad request".data <:+: body.data) ∧
    (body = "Bad request" →
        emitsFinding (checkSubdomain env subdomain) subdomain = true) ∧
    (body = "Access Denied" ∨ body = "bad request" →
        findings (checkSubdomain env subdomain) = []) ∧
    (env.verbose = false →
      ("Bad request".data <:+: body.data →
        output (checkSubdomain env subdomain) = [Output.println (normalize subdomain)] ∧
        ∀ colored, (output (checkSubdomain env subdomain)).map (Output.text colored) =
          [normalize subdomain ++ "\n"]) ∧
      (¬ "Bad request".data <:+: body.data →
        output (checkSubdomain env subdomain) = [])) := by
  have hout := output_checkSubdomain_of_ok env subdomain resp hget
  simp only [hcode, hbody, StatusForbidden, if_true] at hout
  have key : ∀ b : String, resp.Body = .ok b →
      (emitsFinding (checkSubdomain env subdomain) subdomain = true ↔
        "Bad request".data <:+: b.data) ∧
      (findings (checkSubdomain env subdomain) ≠ [] ↔
        "Bad request".data <:+: b.data) := by
    intro b hb
    rw [hbody] at hb
    cases hb
    rw [← Contains_iff]
    unfold emitsFinding findings
    rw [hout]
    cases hv : env.verbose <;> cases hc : Contains body "Bad request" <;>
      simp [Output.isFinding, Output.url]
  refine ⟨(key body hbody).1, (key body hbody).2, ?_, ?_, ?_⟩
  · intro hb
    subst hb
    exact (key _ hbody).1.mpr (by decide)
  · intro hb
    have h2 := (key body hbody).2
    have hn : ¬ "Bad request".data <:+: body.data := by
      rcases hb with hb | hb <;> subst hb <;> decide
    by_contra hne
    exact hn (h2.mp hne)
  · intro hv
    rw [hout, hv]
    constructor
    · intro hin
      rw [(Contains_iff _ _).mpr hin]
      simp [Output.text]
    · intro hin
      rw [(Contains_eq_false_iff _ _).mpr hin]
      simp

theorem checkSubdomain_forbidden_finding_iff_witness :
    emitsFinding (checkSubdomain (mockEnv false 403 (.ok "Bad request")) "a.example.com")
        "a.example.com" = true ∧
    output (checkSubdomain (mockEnv false 403 (.ok "Bad request")) "a.example.com") =
        [Output.println "http://a.example.com"] ∧
    findings (checkSubdomain (mockEnv true 403 (.ok "Access Denied")) "a.example.com") = [] ∧
    output (checkSubdomain (mockEnv false 403 (.ok "bad request")) "a.example.com") = [] := by
  have h1 := checkSubdomain_forbidden_finding_iff (mockEnv false 403 (.ok "Bad request"))
    "a.example.com" ⟨403, .ok "Bad request"⟩ "Bad request" rfl rfl rfl
  have h2 := checkSubdomain_forbidden_finding_iff (mockEnv true 403 (.ok "Access Denied"))
    "a.example.com" ⟨403, .ok "Access Denied"⟩ "Access Denied" rfl rfl rfl
  have h3 := checkSubdomain_forbidden_finding_iff (mockEnv false 403 (.ok "bad request"))
    "a.example.com" ⟨403, .ok "bad request"⟩ "bad request" rfl rfl rfl
  exact ⟨h1.2.2.1 rfl, ((h1.2.2.2.2 rfl).1 (by decide)).1, h2.2.2.2.1 (Or.inl rfl),
    (h3.2.2.2.2 rfl).2 (by decide)⟩

/-- C2: on a response whose status code is not 403, whatever the body,
`checkSubdomain` emits no finding; its output is empty in non-verbose mode and
is the single diagnostic line in verbose mode. -/
theorem checkSubdomain_not_forbidden_no_finding (env : Env) (subdomain : String)
    (resp : Response)
    (hget : env.Get (normalize subdomain) = .ok resp)
    (hcode : resp.StatusCode ≠ 403) :
    findings (checkSubdomain env subdomain) = [] ∧
    emitsFinding (checkSubdomain env subdomain) subdomain = false ∧
    (env.verbose = false → output (checkSubdomain env subdomain) = []) ∧
    (env.verbose = true →
      output (checkSubdomain env subdomain) =
        [Output.status (normalize subdomain) resp.StatusCode]) := by
  have hout := output_checkSubdomain_of_ok env subdomain resp hget
  have hc : ¬ resp.StatusCode = StatusForbidden := hcode
  simp only [hc, if_false, List.append_nil] at hout
  unfold findings emitsFinding
  rw [hout]
  cases env.verbose <;> simp [Output.isFinding]

theorem checkSubdomain_not_forbidden_no_finding_witness :
    findings (checkSubdomain (mockEnv true 200 (.ok "Bad request")) "a.example.com") = [] ∧
    output (checkSubdomain (mockEnv false 200 (.ok "Bad request")) "a.example.com") = [] := by
  have h1 := checkSubdomain_not_forbidden_no_finding (mockEnv true 200 (.ok "Bad request"))
    "a.example.com" ⟨200, .ok "Bad request"⟩ rfl (by decide)
  have h2 := checkSubdomain_not_forbidden_no_finding (mockEnv false 200 (.ok "Bad request"))
    "a.example.com" ⟨200, .ok "Bad request"⟩ rfl (by decide)
  exact ⟨h1.1, h2.2.2.1 rfl⟩

/-- The single request of a probe is for the normalized URL. -/
theorem requests_checkSubdomain (env : Env) (s : String) :
    requests (checkSubdomain env s) = [normalize s] := by
  simp only [checkSubdomain, requests_cons, List.singleton_append]
  cases env.Get (normalize s) with
  | error e => simp
  | ok resp =>
    simp only [requests_append]
    cases env.verbose <;> by_cases hc : resp.StatusCode = StatusForbidden <;>
      simp [hc] <;> cases resp.Body <;> simp <;> split <;> simp

/-- Every line a probe prints reports the normalized URL. -/
theorem url_of_mem_output_checkSubdomain (env : Env) (s : String) (o : Output)
    (ho : o ∈ output (checkSubdomain env s)) : o.url = normalize s := by
  cases hg : env.Get (normalize s) with
  | error e =>
    rw [checkSubdomain_of_error env s e hg] at ho
    simp at ho
  | ok resp =>
    rw [output_checkSubdomain_of_ok env s resp hg] at ho
    revert o
    cases env.verbose <;> by_cases hc : resp.StatusCode = StatusForbidden <;>
      simp [hc, Output.url] <;> cases resp.Body <;> simp [Output.url]

/-- C3: the URL `checkSubdomain` requests and reports is the hostname itself
when it starts with `http://` or `https://`, and `http://` followed by the
hostname otherwise; it always starts with a scheme and ends with the hostname. -/
theorem normalize_url (s : String) :
    (("http://".data <+: s.data ∨ "https://".data <+: s.data) → normalize s = s) ∧
    (¬ ("http://".data <+: s.data ∨ "https://".data <+: s.data) →
      normalize s = "http://" ++ s) ∧
    ("http://".data <+: (normalize s).data ∨ "https://".data <+: (normalize s).data) ∧
    s.data <:+ (normalize s).data ∧
    (∀ env : Env, requests (checkSubdomain env s) = [normalize s] ∧
      ∀ o ∈ output (checkSubdomain env s), o.url = normalize s) := by
  have hyes : startsWithHTTP s = true → normalize s = s := by
    intro h
    simp [normalize, h]
  have hno : startsWithHTTP s = false → normalize s = "http://" ++ s := by
    intro h
    simp [normalize, h]
  refine ⟨?_, ?_, ?_, ?_, ?_⟩
  · intro h
    exact hyes ((startsWithHTTP_iff s).mpr h)
  · intro h
    apply hno
    cases hs : startsWithHTTP s
    · rfl
    · exact absurd ((startsWithHTTP_iff s).mp hs) h
  · cases hs : startsWithHTTP s
    · left
      rw [hno hs, String.data_append]
      exact List.prefix_append _ _
    · rw [hyes hs]
      exact (startsWithHTTP_iff s).mp hs
  · cases hs : startsWithHTTP s
    · rw [hno hs, String.data_append]
      exact List.suffix_append _ _
    · rw [hyes hs]
  · intro env
    exact ⟨requests_checkSubdomain env s, url_of_mem_output_checkSubdomain env s⟩

theorem normalize_url_witness :
    normalize "https://a.example.com" = "https://a.example.com" ∧
    normalize "a.example.com" = "http://a.example.com" :=
  ⟨(normalize_url "https://a.example.com").1 (Or.inr (by decide)),
   (normalize_url "a.example.com").2.1 (by decide)⟩

/-- C5: in verbose mode, when the request completes, the first line printed is
the diagnostic `<normalized URL>,<status code>`, printed once; in non-verbose
mode no diagnostic is printed. -/
theorem checkSubdomain_diagnostic (env : Env) (subdomain : String) :
    (env.verbose = true → ∀ resp, env.Get (normalize subdomain) = .ok resp →
      (∃ rest, output (checkSubdomain env subdomain) =
          Output.status (normalize subdomain) resp.StatusCode :: rest ∧
        ∀ o ∈ rest, o.isDiagnostic = false) ∧
      diagnostics (checkSubdomain env subdomain) =
        [Output.status (normalize subdomain) resp.StatusCode] ∧
      ∀ colored, Output.text colored (Output.status (normalize subdomain) resp.StatusCode) =
        normalize subdomain ++ "," ++ toString resp.StatusCode ++ "\n") ∧
    (env.verbose = false → diagnostics (checkSubdomain env subdomain) = []) := by
  constructor
  · intro hv resp hget
    have hout := output_checkSubdomain_of_ok env subdomain resp hget
    simp only [hv, if_true, List.singleton_append] at hout
    have hrest : ∀ o ∈ (if resp.StatusCode = StatusForbidden then
        match resp.Body with
        | .error err => [Output.readError (normalize subdomain) err]
        | .ok bodyString =>
          if Contains bodyString "Bad request" then [Output.green (normalize subdomain)]
          else []
        else []), o.isDiagnostic = false := by
      by_cases hc : resp.StatusCode = StatusForbidden
      · simp only [hc, if_true]
        cases resp.Body <;> simp [Output.isDiagnostic]
      · simp [hc]
    refine ⟨⟨_, hout, hrest⟩, ?_, fun _ => rfl⟩
    unfold diagnostics
    rw [hout, List.filter_cons_of_pos (by rfl), List.filter_eq_nil_iff.mpr]
    intro o ho
    simp [hrest o ho]
  · intro hv
    unfold diagnostics
    rw [List.filter_eq_nil_iff]
    intro o ho
    cases hg : env.Get (normalize subdomain) with
    | error e =>
      rw [checkSubdomain_of_error env subdomain e hg] at ho
      simp at ho
    | ok resp =>
      rw [output_checkSubdomain_of_ok env subdomain resp hg] at ho
      revert o
      by_cases hc : resp.StatusCode = StatusForbidden
      · simp only [hv, hc, if_true]
        cases resp.Body <;> simp [Output.isDiagnostic]
      · simp [hv, hc]

theorem checkSubdomain_diagnostic_witness :
    output (checkSubdomain (mockEnv true 403 (.ok "Bad request")) "a.example.com") =
      [Output.status "http://a.example.com" 403, Output.green "http://a.example.com"] ∧
    Output.text id (Output.status "http://a.example.com" 403) = "http://a.example.com,403\n" ∧
    diagnostics (checkSubdomain (mockEnv false 403 (.ok "Bad request")) "a.example.com") = [] := by
  have h1 := (checkSubdomain_diagnostic (mockEnv true 403 (.ok "Bad request"))
    "a.example.com").1 rfl ⟨403, .ok "Bad request"⟩ rfl
  have h2 := (checkSubdomain_diagnostic (mockEnv false 403 (.ok "Bad request"))
    "a.example.com").2 rfl
  exact ⟨by decide, h1.2.2 id, h2⟩

/-- C6: a probe that fails emits no finding.  On a transport error the probe
prints nothing in either mode and issues the one request only; when the body
read of a 403 response fails there is no finding, nothing is printed in
non-verbose mode, and only the diagnostic and the read error in verbose mode. -/
theorem checkSubdomain_failure_no_finding (env : Env) (subdomain : String) :
    (∀ e, env.Get (normalize subdomain) = .error e →
      output (checkSubdomain env subdomain) = [] ∧
      findings (checkSubdomain env subdomain) = [] ∧
      requests (checkSubdomain env subdomain) = [normalize subdomain] ∧
      checkSubdomain env subdomain = [Event.Get (normalize subdomain)]) ∧
    (∀ resp e, env.Get (normalize subdomain) = .ok resp → resp.StatusCode = 403 →
      resp.Body = .error e →
      findings (checkSubdomain env subdomain) = [] ∧
      emitsFinding (checkSubdomain env subdomain) subdomain = false ∧
      (env.verbose = false → output (checkSubdomain env subdomain) = []) ∧
      (env.verbose = true → output (checkSubdomain env subdomain) =
        [Output.status (normalize subdomain) 403,
         Output.readError (normalize subdomain) e])) := by
  constructor
  · intro e hget
    have h := checkSubdomain_of_error env subdomain e hget
    refine ⟨?_, ?_, requests_checkSubdomain env subdomain, h⟩
    · rw [h]; rfl
    · unfold findings
      rw [h]; rfl
  · intro resp e hget hcode hbody
    have hout := output_checkSubdomain_of_ok env subdomain resp hget
    simp only [hcode, hbody, StatusForbidden, if_true] at hout
    unfold findings emitsFinding
    rw [hout]
    cases env.verbose <;> simp [Output.isFinding]

theorem checkSubdomain_failure_no_finding_witness :
    checkSubdomain (failingEnv true) "a.example.com" = [Event.Get "http://a.example.com"] ∧
    output (checkSubdomain (mockEnv false 403 (.error "unexpected EOF")) "a.example.com") = [] ∧
    output (checkSubdomain (mockEnv true 403 (.error "unexpected EOF")) "a.example.com") =
      [Output.status "http://a.example.com" 403,
       Output.readError "http://a.example.com" "unexpected EOF"] := by
  have h1 := (checkSubdomain_failure_no_finding (failingEnv true) "a.example.com").1
    "connection refused" rfl
  have h2 := (checkSubdomain_failure_no_finding (mockEnv false 403 (.error "unexpected EOF"))
    "a.example.com").2 ⟨403, .error "unexpected EOF"⟩ "unexpected EOF" rfl rfl rfl
  have h3 := (checkSubdomain_failure_no_finding (mockEnv true 403 (.error "unexpected EOF"))
    "a.example.com").2 ⟨403, .error "unexpected EOF"⟩ "unexpected EOF" rfl rfl rfl
  exact ⟨h1.2.2.2, h2.2.2.1 rfl, h3.2.2.2 rfl⟩

theorem probes_checkSubdomain (env : Env) (s : String) :
    probes (checkSubdomain env s) = [] := by
  simp only [checkSubdomain, probes_cons, List.nil_append]
  cases env.Get (normalize s) with
  | error e => simp
  | ok resp =>
    simp only [probes_append]
    cases env.verbose <;> by_cases hc : resp.StatusCode = StatusForbidden <;>
      simp [hc] <;> cases resp.Body <;> simp <;> split <;> simp

theorem lookups_checkSubdomain (env : Env) (s : String) :
    lookups (checkSubdomain env s) = [] := by
  simp only [checkSubdomain, lookups_cons, List.nil_append]
  cases env.Get (normalize s) with
  | error e => simp
  | ok resp =>
    simp only [lookups_append]
    cases env.verbose <;> by_cases hc : resp.StatusCode = StatusForbidden <;>
      simp [hc] <;> cases resp.Body <;> simp <;> split <;> simp

/-- One step of the inner loop on an address that does not qualify. -/
theorem scanIPs_cons_of_not_qualifies (env : Env) (prefixes : List Prefix) (s : String)
    (ip : IP) (rest : List IP) (h : qualifies env prefixes ip = false) :
    scanIPs env prefixes s (ip :: rest) =
      Event.IsAWSIPAddress ip :: scanIPs env prefixes s rest := by
  unfold qualifies at h
  rw [scanIPs]
  cases hl : env.IsAWSIPAddress ip prefixes with
  | error e => rfl
  | ok ps =>
    rw [hl] at h
    have hps : ¬ ps.length > 0 := by simpa using h
    simp [hps]

/-- One step of the inner loop on an address that qualifies. -/
theorem scanIPs_cons_of_qualifies (env : Env) (prefixes : List Prefix) (s : String)
    (ip : IP) (rest : List IP) (h : qualifies env prefixes ip = true) :
    scanIPs env prefixes s (ip :: rest) =
      Event.IsAWSIPAddress ip :: Event.checkSubdomain s ::
        (checkSubdomain env s ++ scanIPs env prefixes s rest) := by
  unfold qualifies at h
  rw [scanIPs]
  cases hl : env.IsAWSIPAddress ip prefixes with
  | error e => rw [hl] at h; cases h
  | ok ps =>
    rw [hl] at h
    have hps : ps.length > 0 := by simpa using h
    simp [hps]

theorem lookups_scanIPs (env : Env) (prefixes : List Prefix) (s : String) (IPs : List IP) :
    lookups (scanIPs env prefixes s IPs) = IPs := by
  induction IPs with
  | nil => rfl
  | cons ip rest ih =>
    cases hq : qualifies env prefixes ip
    · rw [scanIPs_cons_of_not_qualifies env prefixes s ip rest hq]
      simp [ih]
    · rw [scanIPs_cons_of_qualifies env prefixes s ip rest hq]
      simp [ih, lookups_checkSubdomain]

theorem probes_scanIPs (env : Env) (prefixes : List Prefix) (s : String) (IPs : List IP) :
    probes (scanIPs env prefixes s IPs) =
      List.replicate (IPs.countP (qualifies env prefixes)) s := by
  induction IPs with
  | nil => rfl
  | cons ip rest ih =>
    cases hq : qualifies env prefixes ip
    · rw [scanIPs_cons_of_not_qualifies env prefixes s ip rest hq]
      simp [ih, List.countP_cons, hq]
    · rw [scanIPs_cons_of_qualifies env prefixes s ip rest hq]
      simp [ih, List.countP_cons, hq, probes_checkSubdomain, List.replicate_succ]

theorem output_scanIPs (env : Env) (prefixes : List Prefix) (s : String) (IPs : List IP) :
    output (scanIPs env prefixes s IPs) =
      (List.replicate (IPs.countP (qualifies env prefixes))
        (output (checkSubdomain env s))).flatten := by
  induction IPs with
  | nil => rfl
  | cons ip rest ih =>
    cases hq : qualifies env prefixes ip
    · rw [scanIPs_cons_of_not_qualifies env prefixes s ip rest hq]
      simp [ih, List.countP_cons, hq]
    · rw [scanIPs_cons_of_qualifies env prefixes s ip rest hq]
      simp [ih, List.countP_cons, hq, List.replicate_succ]

theorem requests_scanIPs (env : Env) (prefixes : List Prefix) (s : String) (IPs : List IP) :
    requests (scanIPs env prefixes s IPs) =
      List.replicate (IPs.countP (qualifies env prefixes)) (normalize s) := by
  induction IPs with
  | nil => rfl
  | cons ip rest ih =>
    cases hq : qualifies env prefixes ip
    · rw [scanIPs_cons_of_not_qualifies env prefixes s ip rest hq]
      simp [ih, List.countP_cons, hq]
    · rw [scanIPs_cons_of_qualifies env prefixes s ip rest hq]
      simp [ih, List.countP_cons, hq, requests_checkSubdomain, List.replicate_succ]

/-- The trace of one iteration of the worker on a hostname that resolves. -/
theorem workerStep_of_ok (env : Env) (prefixes : List Prefix) (s : String) (IPs : List IP)
    (h : env.LookupIP s = .ok IPs) :
    workerStep env prefixes s = Event.LookupIP s :: scanIPs env prefixes s IPs := by
  simp [workerStep, h]

/-- The trace of one iteration of the worker on a hostname that does not resolve. -/
theorem workerStep_of_error (env : Env) (prefixes : List Prefix) (s : String) (e : Error)
    (h : env.LookupIP s = .error e) :
    workerStep env prefixes s = [Event.LookupIP s] := by
  simp [workerStep, h]

/-- C10: for a hostname that resolves to the list `IPs`, the worker calls
`checkSubdomain` on it once per address whose lookup returns no error and a
non-empty match set; every address is looked up, and the output is that of one
probe repeated as many times. -/
theorem workerStep_probes_per_qualifying_ip (env : Env) (prefixes : List Prefix)
    (subdomain : String) (IPs : List IP) (h : env.LookupIP subdomain = .ok IPs) :
    probes (workerStep env prefixes subdomain) =
      List.replicate (IPs.countP (qualifies env prefixes)) subdomain ∧
    (probes (workerStep env prefixes subdomain)).length =
      (IPs.filter (qualifies env prefixes)).length ∧
    lookups (workerStep env prefixes subdomain) = IPs ∧
    requests (workerStep env prefixes subdomain) =
      List.replicate (IPs.countP (qualifies env prefixes)) (normalize subdomain) ∧
    output (workerStep env prefixes subdomain) =
      (List.replicate (IPs.countP (qualifies env prefixes))
        (output (checkSubdomain env subdomain))).flatten := by
  rw [workerStep_of_ok env prefixes subdomain IPs h]
  simp only [probes_cons, lookups_cons, requests_cons, output_cons, List.nil_append]
  refine ⟨probes_scanIPs _ _ _ _, ?_, lookups_scanIPs _ _ _ _, requests_scanIPs _ _ _ _,
    output_scanIPs _ _ _ _⟩
  rw [probes_scanIPs, List.length_replicate, List.countP_eq_length_filter]

theorem workerStep_probes_per_qualifying_ip_witness :
    probes (workerStep (awsEnv false [[10, 0, 0, 1], [], [192, 168, 0, 1], [10, 0, 0, 2]])
      ["10.0.0.0/8"] "a.example.com") = ["a.example.com", "a.example.com"] ∧
    output (workerStep (awsEnv false [[10, 0, 0, 1], [], [192, 168, 0, 1], [10, 0, 0, 2]])
      ["10.0.0.0/8"] "a.example.com") =
      [Output.println "http://a.example.com", Output.println "http://a.example.com"] := by
  have h := workerStep_probes_per_qualifying_ip
    (awsEnv false [[10, 0, 0, 1], [], [192, 168, 0, 1], [10, 0, 0, 2]]) ["10.0.0.0/8"]
    "a.example.com" [[10, 0, 0, 1], [], [192, 168, 0, 1], [10, 0, 0, 2]] rfl
  exact ⟨h.1, h.2.2.2.2⟩

/-- C4, as stated, fails: a hostname with two matching addresses is probed
twice while the worker processes it. -/
theorem workerStep_probes_twice :
    (awsEnv false [[10, 0, 0, 1], [10, 0, 0, 2]]).LookupIP "a.example.com" =
      .ok [[10, 0, 0, 1], [10, 0, 0, 2]] ∧
    (awsEnv false [[10, 0, 0, 1], [10, 0, 0, 2]]).IsAWSIPAddress [10, 0, 0, 1] ["10.0.0.0/8"] =
      .ok ["10.0.0.0/8"] ∧
    probes (workerStep (awsEnv false [[10, 0, 0, 1], [10, 0, 0, 2]]) ["10.0.0.0/8"]
      "a.example.com") = ["a.example.com", "a.example.com"] ∧
    (probes (workerStep (awsEnv false [[10, 0, 0, 1], [10, 0, 0, 2]]) ["10.0.0.0/8"]
      "a.example.com")).length ≠ 1 :=
  ⟨rfl, rfl, by decide, by decide⟩

/-- C4, amended: when at least one resolved address matches a block, the worker
probes the hostname at least once and no other hostname, and exactly once if and
only if exactly one resolved address matches. -/
theorem workerStep_probes_at_least_once (env : Env) (prefixes : List Prefix)
    (subdomain : String) (IPs : List IP) (h : env.LookupIP subdomain = .ok IPs)
    (hq : ∃ ip ∈ IPs, qualifies env prefixes ip = true) :
    1 ≤ (probes (workerStep env prefixes subdomain)).length ∧
    (∀ p ∈ probes (workerStep env prefixes subdomain), p = subdomain) ∧
    ((probes (workerStep env prefixes subdomain)).length = 1 ↔
      (IPs.filter (qualifies env prefixes)).length = 1) := by
  have hp : probes (workerStep env prefixes subdomain) =
      List.replicate (IPs.countP (qualifies env prefixes)) subdomain := by
    rw [workerStep_of_ok env prefixes subdomain IPs h]
    simp only [probes_cons, List.nil_append, probes_scanIPs]
  rw [hp, List.length_replicate, ← List.countP_eq_length_filter]
  exact ⟨List.countP_pos_iff.mpr hq, fun p hp => List.eq_of_mem_replicate hp, Iff.rfl⟩

theorem workerStep_probes_at_least_once_witness :
    1 ≤ (probes (workerStep (awsEnv false [[192, 168, 0, 1], [10, 0, 0, 2]]) ["10.0.0.0/8"]
      "a.example.com")).length :=
  (workerStep_probes_at_least_once (awsEnv false [[192, 168, 0, 1], [10, 0, 0, 2]])
    ["10.0.0.0/8"] "a.example.com" [[192, 168, 0, 1], [10, 0, 0, 2]] rfl
    ⟨[10, 0, 0, 2], by decide, by decide⟩).1

/-- The trace of an iteration on a hostname that does not resolve holds no
lookup, probe, request or output. -/
theorem workerStep_of_not_resolves (env : Env) (prefixes : List Prefix) (s : String)
    (h : resolves env s = false) :
    workerStep env prefixes s = [Event.LookupIP s] := by
  unfold resolves at h
  cases hl : env.LookupIP s with
  | error e => exact workerStep_of_error env prefixes s e hl
  | ok IPs => rw [hl] at h; cases h

/-- Removing the hostnames that do not resolve changes no lookup, probe,
request or output of the worker. -/
theorem worker_filter_resolves (env : Env) (prefixes : List Prefix) (hosts : List String) :
    lookups (worker env prefixes hosts) =
      lookups (worker env prefixes (hosts.filter (resolves env))) ∧
    probes (worker env prefixes hosts) =
      probes (worker env prefixes (hosts.filter (resolves env))) ∧
    requests (worker env prefixes hosts) =
      requests (worker env prefixes (hosts.filter (resolves env))) ∧
    output (worker env prefixes hosts) =
      output (worker env prefixes (hosts.filter (resolves env))) := by
  induction hosts with
  | nil => exact ⟨rfl, rfl, rfl, rfl⟩
  | cons s rest ih =>
    obtain ⟨ih1, ih2, ih3, ih4⟩ := ih
    cases hr : resolves env s
    · rw [List.filter_cons_of_neg (by simp [hr]), worker,
        workerStep_of_not_resolves env prefixes s hr]
      simp [ih1, ih2, ih3, ih4]
    · rw [List.filter_cons_of_pos hr, worker, worker]
      simp [ih1, ih2, ih3, ih4]

/-- C7: a hostname whose DNS resolution fails causes no lookup, no probe and no
output, and the worker goes on: the lookups, probes, requests and output of the
worker on a sequence of hostnames are those on the sequence without the
hostnames that fail to resolve. -/
theorem worker_skips_unresolved (env : Env) (prefixes : List Prefix) (hosts : List String) :
    (∀ s e, env.LookupIP s = .error e →
      workerStep env prefixes s = [Event.LookupIP s] ∧
      lookups (workerStep env prefixes s) = [] ∧
      probes (workerStep env prefixes s) = [] ∧
      requests (workerStep env prefixes s) = [] ∧
      output (workerStep env prefixes s) = [] ∧
      ∀ rest, worker env prefixes (s :: rest) =
        Event.LookupIP s :: worker env prefixes rest) ∧
    lookups (worker env prefixes hosts) =
      lookups (worker env prefixes (hosts.filter (resolves env))) ∧
    probes (worker env prefixes hosts) =
      probes (worker env prefixes (hosts.filter (resolves env))) ∧
    requests (worker env prefixes hosts) =
      requests (worker env prefixes (hosts.filter (resolves env))) ∧
    output (worker env prefixes hosts) =
      output (worker env prefixes (hosts.filter (resolves env))) := by
  refine ⟨?_, worker_filter_resolves env prefixes hosts⟩
  intro s e he
  have h := workerStep_of_error env prefixes s e he
  refine ⟨h, ?_, ?_, ?_, ?_, ?_⟩
  · rw [h]; rfl
  · rw [h]; rfl
  · rw [h]; rfl
  · rw [h]; rfl
  · intro rest
    rw [worker, h]
    rfl

theorem worker_skips_unresolved_witness :
    workerStep (dnsEnv false [[10, 0, 0, 1]] ["x.example.com"]) ["10.0.0.0/8"]
      "x.example.com" = [Event.LookupIP "x.example.com"] ∧
    output (worker (dnsEnv false [[10, 0, 0, 1]] ["x.example.com"]) ["10.0.0.0/8"]
      ["x.example.com", "a.example.com"]) = [Output.println "http://a.example.com"] := by
  have h := worker_skips_unresolved (dnsEnv false [[10, 0, 0, 1]] ["x.example.com"])
    ["10.0.0.0/8"] ["x.example.com", "a.example.com"]
  exact ⟨(h.1 "x.example.com" "no such host" rfl).1, by rw [h.2.2.2.2]; decide⟩

/-- The probes, requests and output of an iteration on a hostname that resolves
to a list of addresses, in terms of the number of qualifying addresses. -/
theorem workerStep_counts (env : Env) (prefixes : List Prefix) (s : String) (IPs : List IP)
    (h : env.LookupIP s = .ok IPs) :
    probes (workerStep env prefixes s) =
      List.replicate (IPs.countP (qualifies env prefixes)) s ∧
    requests (workerStep env prefixes s) =
      List.replicate (IPs.countP (qualifies env prefixes)) (normalize s) ∧
    output (workerStep env prefixes s) =
      (List.replicate (IPs.countP (qualifies env prefixes))
        (output (checkSubdomain env s))).flatten := by
  rw [workerStep_of_ok env prefixes s IPs h]
  simp only [probes_cons, requests_cons, output_cons, List.nil_append]
  exact ⟨probes_scanIPs _ _ _ _, requests_scanIPs _ _ _ _, output_scanIPs _ _ _ _⟩

/-- C8: a hostname none of whose resolved addresses has a non-empty match set
is never probed and prints nothing; in non-verbose mode, on the input
`a.example.com`, `b.example.com`, where `a` resolves to one matching address
and answers 403 with body `Bad request` and `b` resolves to addresses matching
no block, only `a` is probed and the output is the one line
`http://a.example.com`. -/
theorem worker_end_to_end (env : Env) (prefixes : List Prefix) :
    (∀ s IPs, env.LookupIP s = .ok IPs →
      (∀ ip ∈ IPs, qualifies env prefixes ip = false) →
      probes (workerStep env prefixes s) = [] ∧
      requests (workerStep env prefixes s) = [] ∧
      output (workerStep env prefixes s) = []) ∧
    (env.verbose = false → ∀ ipA ps ipsB resp,
      env.LookupIP "a.example.com" = .ok [ipA] →
      env.IsAWSIPAddress ipA prefixes = .ok ps → ps ≠ [] →
      env.Get "http://a.example.com" = .ok resp →
      resp.StatusCode = 403 → resp.Body = .ok "Bad request" →
      env.LookupIP "b.example.com" = .ok ipsB →
      (∀ ip ∈ ipsB, ∀ qs, env.IsAWSIPAddress ip prefixes = .ok qs → qs = []) →
      probes (worker env prefixes ["a.example.com", "b.example.com"]) = ["a.example.com"] ∧
      probes (workerStep env prefixes "b.example.com") = [] ∧
      requests (worker env prefixes ["a.example.com", "b.example.com"]) =
        ["http://a.example.com"] ∧
      output (worker env prefixes ["a.example.com", "b.example.com"]) =
        [Output.println "http://a.example.com"] ∧
      ∀ colored,
        (output (worker env prefixes ["a.example.com", "b.example.com"])).map
          (Output.text colored) = ["http://a.example.com\n"]) := by
  have gen : ∀ s IPs, env.LookupIP s = .ok IPs →
      (∀ ip ∈ IPs, qualifies env prefixes ip = false) →
      probes (workerStep env prefixes s) = [] ∧
      requests (workerStep env prefixes s) = [] ∧
      output (workerStep env prefixes s) = [] := by
    intro s IPs hl hq
    have hc : IPs.countP (qualifies env prefixes) = 0 := by
      rw [List.countP_eq_zero]
      intro ip hip
      simp [hq ip hip]
    have h := workerStep_counts env prefixes s IPs hl
    rw [hc] at h
    exact h
  refine ⟨gen, ?_⟩
  intro hv ipA ps ipsB resp hla hma hps hget hcode hbody hlb hmb
  have hqa : qualifies env prefixes ipA = true := by
    unfold qualifies
    rw [hma]
    simpa using List.length_pos.mpr hps
  have hqb : ∀ ip ∈ ipsB, qualifies env prefixes ip = false := by
    intro ip hip
    unfold qualifies
    cases hl : env.IsAWSIPAddress ip prefixes with
    | error e => rfl
    | ok qs => simp [hmb ip hip qs hl]
  obtain ⟨hb1, hb2, hb3⟩ := gen "b.example.com" ipsB hlb hqb
  obtain ⟨ha1, ha2, ha3⟩ := workerStep_counts env prefixes "a.example.com" [ipA] hla
  have hca : [ipA].countP (qualifies env prefixes) = 1 := by
    simp [List.countP_cons, hqa]
  have hn : normalize "a.example.com" = "http://a.example.com" := by decide
  have hout : output (checkSubdomain env "a.example.com") =
      [Output.println "http://a.example.com"] := by
    have h := output_checkSubdomain_of_ok env "a.example.com" resp (by rw [hn]; exact hget)
    rw [h, hn, hv, hcode, hbody]
    have hc : Contains "Bad request" "Bad request" = true := by decide
    simp [StatusForbidden, hc]
  rw [hca] at ha1 ha2 ha3
  rw [hn] at ha2
  rw [hout] at ha3
  have hw : output (worker env prefixes ["a.example.com", "b.example.com"]) =
      [Output.println "http://a.example.com"] := by
    simp [worker, ha3, hb3]
  refine ⟨?_, hb1, ?_, hw, ?_⟩
  · simp [worker, ha1, hb1]
  · simp [worker, ha2, hb2]
  · intro colored
    rw [hw]
    rfl

theorem worker_end_to_end_witness :
    probes (worker scenarioEnv ["10.0.0.0/8"] ["a.example.com", "b.example.com"]) =
      ["a.example.com"] ∧
    output (worker scenarioEnv ["10.0.0.0/8"] ["a.example.com", "b.example.com"]) =
      [Output.println "http://a.example.com"] ∧
    output (workerStep scenarioEnv ["10.0.0.0/8"] "b.example.com") = [] := by
  have h := worker_end_to_end scenarioEnv ["10.0.0.0/8"]
  have h1 := h.1 "b.example.com" [[192, 168, 0, 1]] rfl (by decide)
  have h2 := h.2 rfl [10, 0, 0, 1] ["10.0.0.0/8"] [[192, 168, 0, 1]]
    ⟨403, .ok "Bad request"⟩ rfl rfl (by decide) rfl rfl rfl rfl
    (by
      intro ip hip qs hqs
      rw [List.mem_singleton] at hip
      subst hip
      cases hqs
      rfl)
  exact ⟨h2.1, h2.2.2.2.1, h1.2.2⟩

/-! ## The worker pool -/

theorem countP_set_of_getElem? {α : Type} (f : α → Bool) (l : List α) (i : Nat) (a b : α)
    (h : l[i]? = some a) :
    (l.set i b).countP f + (if f a then 1 else 0) = l.countP f + (if f b then 1 else 0) := by
  induction l generalizing i with
  | nil => simp at h
  | cons x xs ih =>
    cases i with
    | zero =>
      simp only [List.getElem?_cons_zero, Option.some.injEq] at h
      subst h
      simp only [List.set_cons_zero, List.countP_cons]
      omega
    | succ j =>
      simp only [List.getElem?_cons_succ] at h
      have := ih j h
      simp only [List.set_cons_succ, List.countP_cons]
      omega

theorem scanned_cons_of_fits (line : String) (rest : List String) (h : fits line = true) :
    scanned (line :: rest) = dropCR line :: scanned rest := by
  simp [scanned, List.takeWhile_cons, h]

theorem scanned_cons_of_not_fits (line : String) (rest : List String)
    (h : ¬ fits line = true) : scanned (line :: rest) = [] := by
  simp [scanned, List.takeWhile_cons, h]

theorem scanned_of_fits (lines : List String)
    (h : ∀ line ∈ lines, line.utf8ByteSize < MaxScanTokenSize) :
    scanned lines = lines.map dropCR := by
  induction lines with
  | nil => rfl
  | cons line rest ih =>
    rw [scanned_cons_of_fits line rest
      (by simpa [fits] using h line (List.mem_cons_self _ _)),
      ih (fun l hl => h l (List.mem_cons_of_mem _ hl))]
    rfl

theorem length_scanned_le (lines : List String) : (scanned lines).length ≤ lines.length := by
  unfold scanned
  rw [List.length_map]
  exact (List.takeWhile_sublist _).length_le

theorem Pool.Inv_init (N : Nat) (fetchFails : Bool) (src : List String) :
    (Pool.init N fetchFails src).Inv N src := by
  refine ⟨rfl, ?_, ?_, rfl, ?_, ?_, ?_, ?_⟩ <;> simp [Pool.init, Pool.received, Pool.Phase]

theorem Pool.Inv_stepMain {N : Nat} {src : List String} {p q : Pool}
    (h : p.Inv N src) (hq : p.stepMain = some q) : q.Inv N src := by
  obtain ⟨hconc, horder, hcounts, hwg, hcap, hdone, hidx, hphase⟩ := h
  unfold Pool.stepMain at hq
  unfold Pool.Phase at hphase
  unfold Pool.received at horder
  split at hq
  · rename_i hm
    simp only [hm] at hphase
    split at hq
    · rename_i hf
      cases hq
      exact ⟨hconc, horder, hcounts, hwg, hcap, hdone, hidx, by simp [Pool.Phase, hphase, hf]⟩
    · cases hq
      exact ⟨hconc, horder, hcounts, hwg, hcap, hdone, hidx, by simp [Pool.Phase, hphase]⟩
  · rename_i i hm
    simp only [hm] at hphase
    obtain ⟨hlen, hle, hcl⟩ := hphase
    split at hq <;> cases hq
    · rename_i hlt
      refine ⟨hconc, horder, ?_, ?_, hcap, ?_, ?_, ?_⟩
      · intro j s
        have := hcounts j s
        simp only [List.getElem?_append]
        split
        · exact this
        · rename_i hge
          rw [List.getElem?_eq_none (by omega)] at this
          rw [this]
          rcases Nat.eq_zero_or_pos (j - p.workers.length) with h0 | h0
          · simp [h0]
          · rw [List.getElem?_eq_none (by simp only [List.length_singleton]; omega)]
      · simp [hwg, List.countP_append]
      · intro hd
        simp only [List.mem_append, List.mem_singleton] at hd
        rcases hd with hd | hd
        · exact hdone hd
        · cases hd
      · intro e he
        have := hidx e he
        simp only [List.length_append, List.length_singleton]
        omega
      · simp only [Pool.Phase, List.length_append, List.length_singleton]
        exact ⟨by omega, by omega, hcl⟩
    · rename_i hge
      refine ⟨hconc, horder, hcounts, hwg, hcap, hdone, hidx, ?_⟩
      simp only [Pool.Phase]
      exact ⟨by omega, hcl⟩
  · rename_i hm
    simp only [hm] at hphase
    obtain ⟨hlen, hcl⟩ := hphase
    have hnd : WorkerPC.done ∉ p.workers := by
      intro hd
      rw [(hdone hd).1] at hcl
      cases hcl
    split at hq
    · rename_i hs
      cases hq
      refine ⟨hconc, horder, hcounts, hwg, hcap, fun hd => absurd hd hnd, hidx, ?_⟩
      simp [Pool.Phase, hlen, hs, scanned]
    · rename_i line rest hs
      split at hq
      · rename_i hf
        split at hq
        · rename_i hlt
          cases hq
          refine ⟨hconc, ?_, hcounts, hwg, ?_, fun hd => absurd hd hnd, hidx, ?_⟩
          · simp only [Pool.received]
            rw [← horder, hs, scanned_cons_of_fits line rest hf]
            simp
          · simp only [List.length_append, List.length_singleton]
            omega
          · simp only [Pool.Phase, hm]
            exact ⟨hlen, hcl⟩
        · cases hq
      · rename_i hf
        cases hq
        refine ⟨hconc, horder, hcounts, hwg, hcap, fun hd => absurd hd hnd, hidx, ?_⟩
        simp only [Pool.Phase]
        exact ⟨hlen, trivial, by rw [hs]; exact scanned_cons_of_not_fits line rest hf⟩
  · rename_i hm
    simp only [hm] at hphase
    split at hq
    · rename_i hz
      cases hq
      refine ⟨hconc, horder, hcounts, hwg, hcap, hdone, hidx, ?_⟩
      simp only [Pool.Phase]
      exact ⟨hphase.1, hphase.2.1, hphase.2.2, hz⟩
    · cases hq
  · cases hq
  · cases hq

theorem Pool.Phase_of_eq (p q : Pool) (h1 : q.main = p.main)
    (h2 : q.workers.length = p.workers.length) (h3 : q.concurrency = p.concurrency)
    (h4 : q.closed = p.closed) (h5 : q.stdin = p.stdin) (h6 : p.wg = 0 → q.wg = 0)
    (h7 : q.fetchFails = p.fetchFails) (h : p.Phase) : q.Phase := by
  unfold Pool.Phase at h ⊢
  rw [h1, h2, h3, h4, h5, h7]
  cases hm : p.main <;> simp only [hm] at h ⊢ <;> try exact h
  exact ⟨h.1, h.2.1, h.2.2.1, h6 h.2.2.2⟩

theorem count_append_pair (l : List (Nat × String)) (i j : Nat) (s t : String) :
    (l ++ [(i, s)]).count (j, t) = l.count (j, t) + (if i = j ∧ s = t then 1 else 0) := by
  rw [List.count_append, List.count_singleton]
  congr 1
  by_cases h : i = j ∧ s = t
  · obtain ⟨h1, h2⟩ := h
    subst h1 h2
    simp
  · rw [if_neg h, if_neg]
    intro hb
    have := eq_of_beq hb
    simp only [Prod.mk.injEq] at this
    exact h this

theorem Pool.Inv_stepWorker {N : Nat} {src : List String} {p q : Pool} {i : Nat}
    (h : p.Inv N src) (hq : p.stepWorker i = some q) : q.Inv N src := by
  obtain ⟨hconc, horder, hcounts, hwg, hcap, hdone, hidx, hphase⟩ := h
  unfold Pool.stepWorker at hq
  unfold Pool.received at horder
  split at hq
  · cases hq
  · rename_i hw
    have hi : i < p.workers.length := (List.getElem?_eq_some.mp hw).1
    split at hq
    · rename_i s rest hs
      cases hq
      have hidx2 : ∀ e ∈ p.dequeued ++ [(i, s)], e.1 < (p.workers.set i (.process s)).length := by
        intro e he
        rw [List.length_set]
        simp only [List.mem_append, List.mem_singleton] at he
        rcases he with he | he
        · exact hidx e he
        · rw [he]
          exact hi
      refine ⟨hconc, ?_, ?_, ?_, ?_, ?_, hidx2, ?_⟩
      · simp only [Pool.received]
        rw [← horder, hs]
        simp
      · intro j t
        have hc := hcounts j t
        simp only [count_append_pair, List.getElem?_set, hi, if_true]
        by_cases hij : i = j
        · subst hij
          rw [hw] at hc
          simp only [true_and, if_true, Option.some.injEq, WorkerPC.process.injEq] at hc ⊢
          simp only [reduceCtorEq, if_false] at hc
          omega
        · simp only [hij, false_and, if_false]
          exact hc
      · have := countP_set_of_getElem? (fun w => decide (w ≠ .done)) p.workers i .receive
          (.process s) hw
        simp only [ne_eq, reduceCtorEq, not_false_eq_true, decide_True, if_true] at this
        simp only [hwg, ne_eq]
        omega
      · show rest.length ≤ N
        rw [hs] at hcap
        simp only [List.length_cons] at hcap
        omega
      · intro hd
        rcases List.mem_or_eq_of_mem_set hd with hd | hd
        · rw [(hdone hd).2] at hs
          cases hs
        · cases hd
      · exact Pool.Phase_of_eq p _ rfl (List.length_set _ _ _) rfl rfl rfl (fun h => h) rfl hphase
    · rename_i hs
      split at hq
      · rename_i hcl
        cases hq
        have hcp := countP_set_of_getElem? (fun w => decide (w ≠ .done)) p.workers i .receive
          .done hw
        simp only [ne_eq, reduceCtorEq, not_false_eq_true, decide_True, if_true,
          not_true_eq_false, decide_False, Bool.false_eq_true, if_false] at hcp
        refine ⟨hconc, horder, ?_, ?_, hcap, fun _ => ⟨hcl, hs⟩,
          fun e he => by rw [List.length_set]; exact hidx e he, ?_⟩
        · intro j t
          have hc := hcounts j t
          simp only [List.getElem?_set, hi, if_true]
          by_cases hij : i = j
          · subst hij
            rw [hw] at hc
            simp only [if_true, Option.some.injEq, reduceCtorEq, if_false] at hc ⊢
            exact hc
          · simp only [hij, if_false]
            exact hc
        · show p.wg - 1 = _
          simp only [hwg, ne_eq]
          omega
        · exact Pool.Phase_of_eq p _ rfl (List.length_set _ _ _) rfl rfl rfl
            (fun h => by show p.wg - 1 = 0; omega) rfl hphase
      · cases hq
  · rename_i s hw
    have hi : i < p.workers.length := (List.getElem?_eq_some.mp hw).1
    cases hq
    refine ⟨hconc, horder, ?_, ?_, hcap, ?_,
      fun e he => by rw [List.length_set]; exact hidx e he, ?_⟩
    · intro j t
      have hc := hcounts j t
      simp only [count_append_pair, List.getElem?_set, hi, if_true]
      by_cases hij : i = j
      · subst hij
        rw [hw] at hc
        simp only [true_and, if_true, Option.some.injEq, WorkerPC.process.injEq,
          reduceCtorEq, if_false] at hc ⊢
        omega
      · simp only [hij, false_and, if_false]
        exact hc
    · have := countP_set_of_getElem? (fun w => decide (w ≠ .done)) p.workers i (.process s)
        .receive hw
      simp only [ne_eq, reduceCtorEq, not_false_eq_true, decide_True, if_true] at this
      simp only [hwg, ne_eq]
      omega
    · intro hd
      rcases List.mem_or_eq_of_mem_set hd with hd | hd
      · exact hdone hd
      · cases hd
    · exact Pool.Phase_of_eq p _ rfl (List.length_set _ _ _) rfl rfl rfl (fun h => h) rfl hphase
  · cases hq

theorem Pool.Inv_run {N : Nat} {src : List String} (schedule : List Action) (p : Pool)
    (h : p.Inv N src) : (p.run schedule).Inv N src := by
  induction schedule generalizing p with
  | nil => exact h
  | cons a rest ih =>
    rw [Pool.run]
    apply ih
    cases hs : p.step a with
    | none => exact h
    | some q =>
      cases a with
      | main => exact Pool.Inv_stepMain h hs
      | worker i => exact Pool.Inv_stepWorker h hs

/-- What the invariant gives once `main` has returned. -/
theorem Pool.Inv_returned {N : Nat} {src : List String} {p : Pool} (h : p.Inv N src)
    (hm : p.main = .returned) :
    p.closed = true ∧ p.workers = List.replicate N .done ∧ p.subdomains = [] ∧
    p.received = scanned src ∧ p.processed.Perm p.dequeued := by
  obtain ⟨hconc, horder, hcounts, hwg, hcap, hdone, hidx, hphase⟩ := h
  unfold Pool.Phase at hphase
  simp only [hm] at hphase
  obtain ⟨hlen, hcl, hin, hz⟩ := hphase
  have hall : ∀ w ∈ p.workers, w = WorkerPC.done := by
    rw [hwg] at hz
    intro w hw
    have := List.countP_eq_zero.mp hz w hw
    simpa using this
  have hws : p.workers = List.replicate N .done :=
    List.eq_replicate_iff.mpr ⟨by rw [hlen, hconc], hall⟩
  have hch : p.subdomains = [] := by
    rcases Nat.eq_zero_or_pos N with h0 | h0
    · rw [h0] at hcap
      exact List.length_eq_zero.mp (Nat.le_zero.mp hcap)
    · apply (hdone _).2
      rw [hws]
      exact List.mem_replicate.mpr ⟨by omega, rfl⟩
  refine ⟨hcl, hws, hch, ?_, ?_⟩
  · rw [hch, hin] at horder
    simpa using horder
  · rw [List.perm_iff_count]
    rintro ⟨i, s⟩
    have hc := hcounts i s
    have hne : p.workers[i]? ≠ some (.process s) := by
      intro hw
      have := hall _ (List.mem_iff_getElem?.mpr ⟨i, hw⟩)
      cases this
    rw [if_neg hne, Nat.add_zero] at hc
    have e : ∀ l : List (Nat × String),
        List.countP (fun x => decide (x = (i, s))) l = List.count (i, s) l := by
      intro l
      unfold List.count
      apply List.countP_congr
      intro x _
      simp
    show List.countP (fun x => decide (x = (i, s))) p.processed =
      List.countP (fun x => decide (x = (i, s))) p.dequeued
    rw [e, e]
    exact hc.symm

theorem Pool.run_cons (p : Pool) (a : Action) (as : List Action) :
    p.run (a :: as) = ((p.step a).getD p).run as := rfl

theorem Pool.run_append (p : Pool) (as bs : List Action) :
    p.run (as ++ bs) = (p.run as).run bs := by
  induction as generalizing p with
  | nil => rfl
  | cons a as ih =>
    show ((p.step a).getD p).run (as ++ bs) = _
    exact ih _

theorem sum_weight_set_of_getElem? (l : List WorkerPC) (i : Nat) (a b : WorkerPC)
    (h : l[i]? = some a) :
    ((l.set i b).map WorkerPC.weight).sum + a.weight =
      (l.map WorkerPC.weight).sum + b.weight := by
  induction l generalizing i with
  | nil => simp at h
  | cons x xs ih =>
    cases i with
    | zero =>
      simp only [List.getElem?_cons_zero, Option.some.injEq] at h
      subst h
      simp only [List.set_cons_zero, List.map_cons, List.sum_cons]
      omega
    | succ j =>
      simp only [List.getElem?_cons_succ] at h
      have := ih j h
      simp only [List.set_cons_succ, List.map_cons, List.sum_cons]
      omega

/-- Every step of `main` takes the measure down. -/
theorem Pool.measure_stepMain {p q : Pool} (hq : p.stepMain = some q) :
    q.measure + 1 ≤ p.measure := by
  unfold Pool.stepMain at hq
  unfold Pool.measure
  split at hq
  · rename_i hm
    split at hq <;> cases hq <;> simp only [hm, MainPC.weight] <;> omega
  · rename_i i hm
    split at hq <;> cases hq
    · rename_i hlt
      simp only [hm, MainPC.weight, List.map_append, List.sum_append, List.map_cons,
        List.map_nil, List.sum_cons, List.sum_nil, WorkerPC.weight]
      omega
    · simp only [hm, MainPC.weight]
      omega
  · rename_i hm
    split at hq
    · cases hq
      simp only [hm, MainPC.weight]
      omega
    · rename_i line rest hs
      split at hq
      · rename_i hf
        split at hq
        · cases hq
          simp only [hm, hs, MainPC.weight, scanned_cons_of_fits line rest hf,
            List.length_cons, List.length_append, List.length_nil]
          omega
        · cases hq
      · cases hq
        simp only [hm, MainPC.weight]
        omega
  · rename_i hm
    split at hq
    · cases hq
      simp only [hm, MainPC.weight]
      omega
    · cases hq
  · cases hq
  · cases hq

/-- Every step of a worker takes the measure down. -/
theorem Pool.measure_stepWorker {p q : Pool} {i : Nat} (hq : p.stepWorker i = some q) :
    q.measure + 1 ≤ p.measure := by
  unfold Pool.stepWorker at hq
  unfold Pool.measure
  split at hq
  · cases hq
  · rename_i hw
    split at hq
    · rename_i s rest hs
      cases hq
      have := sum_weight_set_of_getElem? p.workers i .receive (.process s) hw
      simp only [WorkerPC.weight] at this
      simp only [hs, List.length_cons]
      omega
    · split at hq
      · cases hq
        have := sum_weight_set_of_getElem? p.workers i .receive .done hw
        simp only [WorkerPC.weight] at this
        simp only
        omega
      · cases hq
  · rename_i s hw
    cases hq
    have := sum_weight_set_of_getElem? p.workers i (.process s) .receive hw
    simp only [WorkerPC.weight] at this
    simp only
    omega
  · cases hq

theorem Pool.measure_step {p q : Pool} {a : Action} (hq : p.step a = some q) :
    q.measure + 1 ≤ p.measure := by
  cases a with
  | main => exact Pool.measure_stepMain hq
  | worker i => exact Pool.measure_stepWorker hq

/-- The steps taken and the measure left are within the measure at the start. -/
theorem Pool.steps_add_measure_le (schedule : List Action) (p : Pool) :
    p.steps schedule + (p.run schedule).measure ≤ p.measure := by
  induction schedule generalizing p with
  | nil => simp [Pool.steps, Pool.run]
  | cons a rest ih =>
    rw [Pool.steps, Pool.run_cons]
    cases hs : p.step a with
    | none => exact ih p
    | some q =>
      have h1 := ih q
      have h2 := Pool.measure_step hs
      simp only [Option.getD_some]
      omega

theorem Pool.measure_init (N : Nat) (fetchFails : Bool) (src : List String) :
    (Pool.init N fetchFails src).measure = 4 + 2 * N + 3 * (scanned src).length := by
  simp [Pool.measure, Pool.init, MainPC.weight]

theorem Pool.stepMain_const {p q : Pool} (hq : p.stepMain = some q) :
    q.fetchFails = p.fetchFails ∧ ∀ line ∈ q.stdin, line ∈ p.stdin := by
  unfold Pool.stepMain at hq
  split at hq
  · split at hq <;> cases hq <;> exact ⟨rfl, fun _ h => h⟩
  · split at hq <;> cases hq <;> exact ⟨rfl, fun _ h => h⟩
  · split at hq
    · cases hq
      exact ⟨rfl, fun _ h => h⟩
    · rename_i line rest hs
      split at hq
      · split at hq
        · cases hq
          refine ⟨rfl, fun l hl => ?_⟩
          rw [hs]
          exact List.mem_cons_of_mem _ hl
        · cases hq
      · cases hq
        exact ⟨rfl, fun _ h => h⟩
  · split at hq
    · cases hq
      exact ⟨rfl, fun _ h => h⟩
    · cases hq
  · cases hq
  · cases hq

theorem Pool.stepWorker_const {p q : Pool} {i : Nat} (hq : p.stepWorker i = some q) :
    q.fetchFails = p.fetchFails ∧ ∀ line ∈ q.stdin, line ∈ p.stdin := by
  unfold Pool.stepWorker at hq
  split at hq
  · cases hq
  · split at hq
    · cases hq
      exact ⟨rfl, fun _ h => h⟩
    · split at hq
      · cases hq
        exact ⟨rfl, fun _ h => h⟩
      · cases hq
  · cases hq
    exact ⟨rfl, fun _ h => h⟩
  · cases hq

/-- A run changes neither the outcome of the fetch nor adds to the lines to read. -/
theorem Pool.run_const (schedule : List Action) (p : Pool) :
    (p.run schedule).fetchFails = p.fetchFails ∧
    ∀ line ∈ (p.run schedule).stdin, line ∈ p.stdin := by
  induction schedule generalizing p with
  | nil => exact ⟨rfl, fun _ h => h⟩
  | cons a rest ih =>
    rw [Pool.run_cons]
    cases hs : p.step a with
    | none => exact ih p
    | some q =>
      have hq : q.fetchFails = p.fetchFails ∧ ∀ line ∈ q.stdin, line ∈ p.stdin := by
        cases a with
        | main => exact Pool.stepMain_const hs
        | worker i => exact Pool.stepWorker_const hs
      obtain ⟨h1, h2⟩ := ih q
      simp only [Option.getD_some]
      exact ⟨h1.trans hq.1, fun l hl => hq.2 l (h2 l hl)⟩

/-- No deadlock: with a worker and the prefixes fetched, some goroutine can move
as long as `main` has not returned. -/
theorem Pool.progress {N : Nat} {src : List String} {p : Pool} (h : p.Inv N src)
    (hN : 1 ≤ N) (hf : p.fetchFails = false) (hm : p.main ≠ .returned) :
    ∃ a q, p.step a = some q := by
  obtain ⟨hconc, horder, hcounts, hwg, hcap, hdone, hidx, hphase⟩ := h
  unfold Pool.Phase at hphase
  have worker_moves : ∀ (i : Nat) (w : WorkerPC), p.workers[i]? = some w → w ≠ .done →
      (p.subdomains = [] → p.closed = true) → ∃ a q, p.step a = some q := by
    intro i w hw hnd hcl
    refine ⟨Action.worker i, ?_⟩
    simp only [Pool.step, Pool.stepWorker, hw]
    cases w with
    | receive =>
      cases hs : p.subdomains with
      | nil => simp [hcl hs]
      | cons s rest => simp
    | process s => simp
    | done => exact absurd rfl hnd
  cases hmain : p.main with
  | fetch =>
    refine ⟨Action.main, ?_⟩
    simp only [Pool.step, Pool.stepMain, hmain]
    split <;> simp
  | spawn i =>
    refine ⟨Action.main, ?_⟩
    simp only [Pool.step, Pool.stepMain, hmain]
    split <;> simp
  | feed =>
    simp only [hmain] at hphase
    obtain ⟨hlen, hcl⟩ := hphase
    cases hs : p.stdin with
    | nil =>
      refine ⟨Action.main, ?_⟩
      simp [Pool.step, Pool.stepMain, hmain, hs]
    | cons line rest =>
      by_cases hfit : fits line = true
      · by_cases hlt : p.subdomains.length < p.concurrency
        · refine ⟨Action.main, ?_⟩
          simp [Pool.step, Pool.stepMain, hmain, hs, hfit, hlt]
        · have h0 : 0 < p.workers.length := by omega
          have hw : p.workers[0]? = some (p.workers[0]) := List.getElem?_eq_getElem h0
          apply worker_moves 0 _ hw
          · intro hd
            have hmem : WorkerPC.done ∈ p.workers :=
              List.mem_iff_getElem?.mpr ⟨0, by rw [hw, hd]⟩
            rw [(hdone hmem).1] at hcl
            cases hcl
          · intro he
            rw [he] at hlt
            simp only [List.length_nil] at hlt
            omega
      · refine ⟨Action.main, ?_⟩
        simp [Pool.step, Pool.stepMain, hmain, hs, hfit]
  | wait =>
    simp only [hmain] at hphase
    obtain ⟨hlen, hcl, _⟩ := hphase
    by_cases hz : p.wg = 0
    · refine ⟨Action.main, ?_⟩
      simp [Pool.step, Pool.stepMain, hmain, hz]
    · rw [hwg] at hz
      obtain ⟨w, hw, hnd⟩ := List.countP_pos_iff.mp (Nat.pos_of_ne_zero hz)
      obtain ⟨i, hi⟩ := List.mem_iff_getElem?.mp hw
      exact worker_moves i w hi (by simpa using hnd) (fun _ => hcl)
  | returned => exact absurd hmain hm
  | fatal =>
    simp only [hmain] at hphase
    rw [hphase.2.2] at hf
    cases hf

/-- From every state of a run the return of `main` can be reached. -/
theorem Pool.completes {N : Nat} {src : List String} (hN : 1 ≤ N) (n : Nat) (p : Pool)
    (h : p.Inv N src) (hf : p.fetchFails = false) (hn : p.measure ≤ n) :
    ∃ more : List Action, (p.run more).main = .returned := by
  induction n generalizing p with
  | zero =>
    by_cases hm : p.main = .returned
    · exact ⟨[], hm⟩
    · obtain ⟨a, q, hq⟩ := Pool.progress h hN hf hm
      have := Pool.measure_step hq
      omega
  | succ n ih =>
    by_cases hm : p.main = .returned
    · exact ⟨[], hm⟩
    · obtain ⟨a, q, hq⟩ := Pool.progress h hN hf hm
      have hlt := Pool.measure_step hq
      have hinv : q.Inv N src := by
        cases a with
        | main => exact Pool.Inv_stepMain h hq
        | worker i => exact Pool.Inv_stepWorker h hq
      have hqf : q.fetchFails = false := by
        have := (Pool.run_const [a] p).1
        rw [Pool.run_cons, hq] at this
        exact this.trans hf
      obtain ⟨more, hmore⟩ := ih q hinv hqf (by omega)
      refine ⟨a :: more, ?_⟩
      rw [Pool.run_cons, hq]
      exact hmore

/-- With the prefixes fetched, every step of `main` takes the measure down by one. -/
theorem Pool.measure_stepMain_eq {p q : Pool} (hph : p.Phase) (hf : p.fetchFails = false)
    (hq : p.stepMain = some q) : q.measure + 1 = p.measure := by
  unfold Pool.stepMain at hq
  unfold Pool.Phase at hph
  unfold Pool.measure
  split at hq
  · rename_i hm
    rw [hf] at hq
    cases hq
    simp only [hm, MainPC.weight]
    omega
  · rename_i i hm
    simp only [hm] at hph
    split at hq <;> cases hq
    · rename_i hlt
      simp only [hm, MainPC.weight, List.map_append, List.sum_append, List.map_cons,
        List.map_nil, List.sum_cons, List.sum_nil, WorkerPC.weight]
      omega
    · simp only [hm, MainPC.weight]
      omega
  · rename_i hm
    split at hq
    · cases hq
      simp only [hm, MainPC.weight]
      omega
    · rename_i line rest hs
      split at hq
      · rename_i hfit
        split at hq
        · cases hq
          simp only [hm, hs, MainPC.weight, scanned_cons_of_fits line rest hfit,
            List.length_cons, List.length_append, List.length_nil]
          omega
        · cases hq
      · cases hq
        simp only [hm, MainPC.weight]
        omega
  · rename_i hm
    split at hq
    · cases hq
      simp only [hm, MainPC.weight]
      omega
    · cases hq
  · cases hq
  · cases hq

/-- Every step of a worker takes the measure down by one. -/
theorem Pool.measure_stepWorker_eq {p q : Pool} {i : Nat} (hq : p.stepWorker i = some q) :
    q.measure + 1 = p.measure := by
  unfold Pool.stepWorker at hq
  unfold Pool.measure
  split at hq
  · cases hq
  · rename_i hw
    split at hq
    · rename_i s rest hs
      cases hq
      have := sum_weight_set_of_getElem? p.workers i .receive (.process s) hw
      simp only [WorkerPC.weight] at this
      simp only [hs, List.length_cons]
      omega
    · split at hq
      · cases hq
        have := sum_weight_set_of_getElem? p.workers i .receive .done hw
        simp only [WorkerPC.weight] at this
        simp only
        omega
      · cases hq
  · rename_i s hw
    cases hq
    have := sum_weight_set_of_getElem? p.workers i (.process s) .receive hw
    simp only [WorkerPC.weight] at this
    simp only
    omega
  · cases hq

/-- With the prefixes fetched, the steps taken and the measure left add up to
the measure at the start. -/
theorem Pool.steps_add_measure_eq {N : Nat} {src : List String} (schedule : List Action)
    (p : Pool) (h : p.Inv N src) (hf : p.fetchFails = false) :
    p.steps schedule + (p.run schedule).measure = p.measure := by
  induction schedule generalizing p with
  | nil => simp [Pool.steps, Pool.run]
  | cons a rest ih =>
    rw [Pool.steps, Pool.run_cons]
    cases hs : p.step a with
    | none => exact ih p h hf
    | some q =>
      have hqf : q.fetchFails = false := by
        have := (Pool.run_const [a] p).1
        rw [Pool.run_cons, hs] at this
        exact this.trans hf
      simp only [Option.getD_some]
      cases a with
      | main =>
        have h1 := ih q (Pool.Inv_stepMain h hs) hqf
        have h2 := Pool.measure_stepMain_eq h.phase hf hs
        omega
      | worker i =>
        have h1 := ih q (Pool.Inv_stepWorker h hs) hqf
        have h2 := Pool.measure_stepWorker_eq hs
        omega

/-- With the prefixes fetched, the measure is zero exactly when `main` has
returned. -/
theorem Pool.measure_eq_zero_iff {N : Nat} {src : List String} {p : Pool} (h : p.Inv N src)
    (hf : p.fetchFails = false) : p.measure = 0 ↔ p.main = .returned := by
  constructor
  · intro hz
    have hph := h.phase
    unfold Pool.Phase at hph
    unfold Pool.measure at hz
    cases hm : p.main with
    | returned => rfl
    | fatal =>
      simp only [hm] at hph
      rw [hph.2.2] at hf
      cases hf
    | fetch => simp only [hm, MainPC.weight] at hz; omega
    | spawn i => simp only [hm, MainPC.weight] at hz; omega
    | feed => simp only [hm, MainPC.weight] at hz; omega
    | wait => simp only [hm, MainPC.weight] at hz; omega
  · intro hm
    obtain ⟨_, hws, hch, _, _⟩ := Pool.Inv_returned h hm
    have hph := h.phase
    unfold Pool.Phase at hph
    simp only [hm] at hph
    have hsum : ∀ n : Nat, ((List.replicate n WorkerPC.done).map WorkerPC.weight).sum = 0 := by
      intro n
      induction n with
      | zero => rfl
      | succ n ih => simp [List.replicate_succ, WorkerPC.weight]
    unfold Pool.measure
    rw [hm, hws, hch, hph.2.2.1, hsum]
    rfl

theorem Pool.Phase_length_le {p : Pool} (h : p.Phase) : p.workers.length ≤ p.concurrency := by
  unfold Pool.Phase at h
  cases hm : p.main <;> simp only [hm] at h <;> omega

theorem utf8ByteSize_replicate (n : Nat) :
    (String.mk (List.replicate n 'a')).utf8ByteSize = n := by
  show String.utf8ByteSize.go (List.replicate n 'a') = n
  induction n with
  | zero => rfl
  | succ n ih =>
    show String.utf8ByteSize.go (List.replicate n 'a') + ('a').utf8Size = n + 1
    rw [ih]
    rfl

theorem fits_longLine : fits longLine = false := by
  unfold fits longLine
  rw [utf8ByteSize_replicate]
  simp

/-- The run of `Pool.sequential` on a hostname followed by a line that does not
fit and whatever comes after it. -/
theorem Pool.run_sequential (line : String) (rest : List String) (h : fits line = false) :
    (Pool.init 1 false ("a.example.com" :: line :: rest)).run Pool.sequential =
      ⟨1, false, .returned, line :: rest, [], true, 0, [.done],
        [(0, "a.example.com")], [(0, "a.example.com")]⟩ := by
  have ha : fits "a.example.com" = true := by decide
  have hd : dropCR "a.example.com" = "a.example.com" := by decide
  simp [Pool.run, Pool.sequential, Pool.init, Pool.step, Pool.stepMain, Pool.stepWorker,
    h, ha, hd]

/-- C9, as stated, fails: on three lines of input of which the second has
65536 bytes, `main` returns after a single reception, and under no schedule are
there more: the hostname after the long line is never sent. -/
theorem pool_long_line_ends_scan :
    ["a.example.com", longLine, "b.example.com"].length = 3 ∧
    longLine.utf8ByteSize = 65536 ∧
    ((Pool.init 1 false ["a.example.com", longLine, "b.example.com"]).run
      Pool.sequential).main = .returned ∧
    ((Pool.init 1 false ["a.example.com", longLine, "b.example.com"]).run
      Pool.sequential).dequeued = [(0, "a.example.com")] ∧
    ((Pool.init 1 false ["a.example.com", longLine, "b.example.com"]).run
      Pool.sequential).stdin = [longLine, "b.example.com"] ∧
    ∀ schedule : List Action,
      ((Pool.init 1 false ["a.example.com", longLine, "b.example.com"]).run
        schedule).dequeued.length ≤ 1 := by
  have hrun := Pool.run_sequential longLine ["b.example.com"] fits_longLine
  refine ⟨rfl, utf8ByteSize_replicate _, ?_, ?_, ?_, ?_⟩
  · rw [hrun]
  · rw [hrun]
  · rw [hrun]
  · intro schedule
    have hinv := Pool.Inv_run schedule _
      (Pool.Inv_init 1 false ["a.example.com", longLine, "b.example.com"])
    have h := congrArg List.length hinv.order
    have hs : scanned ["a.example.com", longLine, "b.example.com"] = ["a.example.com"] := by
      rw [scanned_cons_of_fits _ _ (by decide),
        scanned_cons_of_not_fits _ _ (by simp [fits_longLine])]
      rfl
    rw [hs] at h
    simp only [Pool.received, List.length_append, List.length_map, List.length_singleton] at h
    omega

/-- C9, amended: with `N ≥ 1` workers and `K` lines of input that are each
shorter than 65536 bytes, under every schedule of `main` and the workers the
hostnames received from the channel, those in its buffer and those still to be
read make up the input, in order, so no hostname is received twice or lost, and
every reception is by one of the `N` workers; when `main` has returned the
channel is closed, all `N` workers have returned, the receptions are the `K`
hostnames, each once, and the loop bodies completed are these receptions.  No
run is stuck before `main` has returned, and `main` has returned exactly when
`4 + 2 N + 3 K` steps have been taken, so that every run in which the scheduler
keeps choosing a goroutine that can move comes to the return of `main`. -/
theorem pool_processes_each_hostname_once (N : Nat) (src : List String) (hN : 1 ≤ N)
    (hfit : ∀ line ∈ src, line.utf8ByteSize < MaxScanTokenSize) (schedule : List Action) :
    ((Pool.init N false src).run schedule).received ++
      ((Pool.init N false src).run schedule).subdomains ++
      ((Pool.init N false src).run schedule).stdin.map dropCR = src.map dropCR ∧
    ((Pool.init N false src).run schedule).dequeued.length ≤ src.length ∧
    (∀ e ∈ ((Pool.init N false src).run schedule).dequeued, e.1 < N) ∧
    (((Pool.init N false src).run schedule).main = .returned →
      ((Pool.init N false src).run schedule).closed = true ∧
      ((Pool.init N false src).run schedule).workers = List.replicate N .done ∧
      ((Pool.init N false src).run schedule).received = src.map dropCR ∧
      ((Pool.init N false src).run schedule).dequeued.length = src.length ∧
      ((Pool.init N false src).run schedule).processed.Perm
        ((Pool.init N false src).run schedule).dequeued) ∧
    (((Pool.init N false src).run schedule).main = .returned ∨
      ∃ a : Action, (((Pool.init N false src).run schedule).step a).isSome = true) ∧
    (Pool.init N false src).steps schedule ≤ 4 + 2 * N + 3 * src.length ∧
    ((Pool.init N false src).steps schedule = 4 + 2 * N + 3 * src.length ↔
      ((Pool.init N false src).run schedule).main = .returned) ∧
    (∃ more : List Action,
      ((Pool.init N false src).run (schedule ++ more)).main = .returned) := by
  have hinv := Pool.Inv_run schedule _ (Pool.Inv_init N false src)
  have hconst := Pool.run_const schedule (Pool.init N false src)
  have hbound := Pool.steps_add_measure_le schedule (Pool.init N false src)
  rw [Pool.measure_init, scanned_of_fits src hfit, List.length_map] at hbound
  have hexact := Pool.steps_add_measure_eq schedule _ (Pool.Inv_init N false src) rfl
  rw [Pool.measure_init, scanned_of_fits src hfit, List.length_map] at hexact
  have hzero := Pool.measure_eq_zero_iff hinv hconst.1
  have hmore : ∃ more : List Action,
      ((Pool.init N false src).run (schedule ++ more)).main = .returned := by
    obtain ⟨more, h⟩ := Pool.completes hN _ _ hinv hconst.1 (Nat.le_refl _)
    exact ⟨more, by rw [Pool.run_append]; exact h⟩
  generalize (Pool.init N false src).run schedule = p at hinv hconst hbound hexact hzero
  have hsrc := scanned_of_fits src hfit
  have hin : scanned p.stdin = p.stdin.map dropCR :=
    scanned_of_fits p.stdin (fun l hl => hfit l (hconst.2 l hl))
  have horder := hinv.order
  rw [hsrc, hin] at horder
  have hlen : p.dequeued.length ≤ src.length := by
    have h := congrArg List.length horder
    simp only [Pool.received, List.length_append, List.length_map] at h
    omega
  have hiff : (Pool.init N false src).steps schedule = 4 + 2 * N + 3 * src.length ↔
      p.main = .returned := by
    rw [← hzero]
    omega
  refine ⟨horder, hlen, ?_, ?_, ?_, by omega, hiff, hmore⟩
  · intro e he
    have h1 := hinv.index e he
    have h2 := Pool.Phase_length_le hinv.phase
    have h3 := hinv.conc
    omega
  · intro hm
    obtain ⟨hcl, hws, _, hrec, hperm⟩ := Pool.Inv_returned hinv hm
    rw [hsrc] at hrec
    refine ⟨hcl, hws, hrec, ?_, hperm⟩
    have h := congrArg List.length hrec
    simpa [Pool.received] using h
  · by_cases hm : p.main = .returned
    · exact Or.inl hm
    · obtain ⟨a, q, hq⟩ := Pool.progress hinv hN hconst.1 hm
      exact Or.inr ⟨a, by rw [hq]; rfl⟩

theorem pool_processes_each_hostname_once_witness :
    ((Pool.init 2 false ["a.example.com", "b.example.com"]).run Pool.interleaved).main =
      .returned ∧
    ((Pool.init 2 false ["a.example.com", "b.example.com"]).run Pool.interleaved).dequeued =
      [(1, "a.example.com"), (0, "b.example.com")] ∧
    ((Pool.init 2 false ["a.example.com", "b.example.com"]).run Pool.interleaved).workers =
      [.done, .done] ∧
    (Pool.init 2 false ["a.example.com", "b.example.com"]).steps Pool.interleaved = 14 := by
  have h := pool_processes_each_hostname_once 2 ["a.example.com", "b.example.com"]
    (by decide) (by decide) Pool.interleaved
  have hm : ((Pool.init 2 false ["a.example.com", "b.example.com"]).run
      Pool.interleaved).main = .returned := by decide
  exact ⟨hm, by decide, (h.2.2.2.1 hm).2.1, h.2.2.2.2.2.2.1.mpr hm⟩

end Nimbonet
